import Mathlib

/-!
# Verification of the `quaternion_averager` crate

Shallow embedding of `src/lib.rs` over the real numbers. The crate is
generic over `T: RealField`; we instantiate the scalar type with `ℝ`.

nalgebra facts reflected here:
* `Quaternion::new(w, i, j, k)` stores its coefficient vector `coords`
  in the order `[i, j, k, w]` (vector part first, scalar last).
* `v * v.transpose()` on a column vector is the outer product,
  entrywise `v r * v c`.
* `Matrix / scalar` divides every entry by the scalar.
* `UnitQuaternion::from_quaternion` divides the quaternion by its
  Euclidean norm.
* `SymmetricEigen::new` is an external collaborator (spec §6): we model
  it as an arbitrary function producing eigenvalues and an eigenvector
  matrix, constrained where needed by `SymEigSpec` (the documented
  contract for symmetric input: eigen-equations plus orthonormality of
  the eigenvector columns).
* `imax` scans the vector keeping the first index whose value strictly
  exceeds the running maximum, so it returns the first index attaining
  the maximum.
-/

namespace QAvg

open Matrix

noncomputable section

/-- nalgebra `Quaternion<ℝ>`: built by `Quaternion::new(w, i, j, k)`,
`w` the scalar/real part, `i j k` the vector/imaginary parts. -/
structure Quat where
  w : ℝ
  i : ℝ
  j : ℝ
  k : ℝ

/-- Componentwise negation `-q` (same rotation as `q`). -/
def Quat.neg (q : Quat) : Quat := ⟨-q.w, -q.i, -q.j, -q.k⟩

/-- nalgebra `quaternion.coords`: the coefficient vector `[i, j, k, w]`
(vector part at indices 0–2, scalar part at index 3). -/
def coords (q : Quat) : Fin 4 → ℝ := ![q.i, q.j, q.k, q.w]

/-- Squared Euclidean norm of a quaternion. -/
def normSq (q : Quat) : ℝ := q.w ^ 2 + q.i ^ 2 + q.j ^ 2 + q.k ^ 2

/-- Euclidean norm, `nalgebra`'s `q.norm()`. -/
def qnorm (q : Quat) : ℝ := Real.sqrt (normSq q)

/-- Componentwise division of a quaternion by a scalar. -/
def qdivScalar (q : Quat) (c : ℝ) : Quat := ⟨q.w / c, q.i / c, q.j / c, q.k / c⟩

/-- nalgebra `UnitQuaternion::from_quaternion` (= `new_normalize`):
divide the quaternion by its norm. -/
def from_quaternion (q : Quat) : Quat := qdivScalar q (qnorm q)

/-- `quaternion.coords * quaternion.coords.transpose()`: the 4×4 outer
product of the coefficient vector with itself. -/
def outer (u : Fin 4 → ℝ) : Matrix (Fin 4) (Fin 4) ℝ := vecMulVec u u

/-- nalgebra `Matrix4 / scalar`: divide every entry by the scalar. -/
def matDivScalar (M : Matrix (Fin 4) (Fin 4) ℝ) (c : ℝ) : Matrix (Fin 4) (Fin 4) ℝ :=
  of fun r s => M r s / c

/-- The averager state: the accumulated matrix and the weight sum
(`struct QuaternionAverager` fields `matrix`, `weight_sum`). -/
structure QAState where
  matrix : Matrix (Fin 4) (Fin 4) ℝ
  weight_sum : ℝ

/-- `QuaternionAverager::new()`: zero matrix, zero weight sum. -/
def new : QAState := ⟨0, 0⟩

/-- `add_quaternion`: add the outer product of the coordinate vector to
the matrix and `1` to the weight sum. -/
def add_quaternion (s : QAState) (q : Quat) : QAState :=
  ⟨s.matrix + outer (coords q), s.weight_sum + 1⟩

/-- `add_quaternion_weighted`: add the outer product divided entrywise
by `weight` to the matrix, and add `weight` to the weight sum. -/
def add_quaternion_weighted (s : QAState) (q : Quat) (weight : ℝ) : QAState :=
  ⟨s.matrix + matDivScalar (outer (coords q)) weight, s.weight_sum + weight⟩

/-- Result of nalgebra's `SymmetricEigen::new`: an eigenvalue vector and
a matrix whose columns are the corresponding eigenvectors. -/
structure SymEigen where
  eigenvalues : Fin 4 → ℝ
  eigenvectors : Matrix (Fin 4) (Fin 4) ℝ

/-- Column `j` of an eigenvector matrix. -/
def colv (P : Matrix (Fin 4) (Fin 4) ℝ) (j : Fin 4) : Fin 4 → ℝ := fun r => P r j

/-- One step of nalgebra's `imax` loop: keep `i` only if its value
strictly exceeds the current best. -/
def imaxStep (v : Fin 4 → ℝ) (best i : Fin 4) : Fin 4 := if v i > v best then i else best

/-- nalgebra `Vector4::imax`: first index of the maximum entry. -/
def imax4 (v : Fin 4 → ℝ) : Fin 4 :=
  imaxStep v (imaxStep v (imaxStep v 0 1) 2) 3

/-- Contract of `SymmetricEigen` on a symmetric matrix `N`: every
column of `eigenvectors` is an eigenvector for the matching eigenvalue,
and the columns are orthonormal. -/
def SymEigSpec (N : Matrix (Fin 4) (Fin 4) ℝ) (d : SymEigen) : Prop :=
  (∀ j, N *ᵥ colv d.eigenvectors j = d.eigenvalues j • colv d.eigenvectors j) ∧
  d.eigenvectors.transpose * d.eigenvectors = 1

/-- The matrix `calc_average` hands to the eigensolver:
`self.matrix / self.weight_sum`. -/
def avgMatrix (s : QAState) : Matrix (Fin 4) (Fin 4) ℝ :=
  matDivScalar s.matrix s.weight_sum

/-- `calc_average`, parametrized by the eigensolver `eig`: divide the
matrix by the weight sum, decompose, take the eigenvector column at
`imax` of the eigenvalues, rebuild a quaternion by
`Quaternion::new(q[3], q[0], q[1], q[2])` and renormalize via
`UnitQuaternion::from_quaternion`. -/
def calc_average (eig : Matrix (Fin 4) (Fin 4) ℝ → SymEigen) (s : QAState) : Quat :=
  let m := avgMatrix s
  let d := eig m
  let i := imax4 d.eigenvalues
  let q := colv d.eigenvectors i
  from_quaternion ⟨q 3, q 0, q 1, q 2⟩

/-- A call to `calc_average` through `&self`: returns the result and
the (immutably borrowed, hence untouched) state. -/
def calc_average_call (eig : Matrix (Fin 4) (Fin 4) ℝ → SymEigen) (s : QAState) :
    Quat × QAState :=
  (calc_average eig s, s)

/-- Insertion of a whole list of quaternions by `add_quaternion`. -/
def insertAll (s : QAState) (l : List Quat) : QAState :=
  l.foldl add_quaternion s

/-- One call to either insertion method, with its arguments. -/
inductive QAOp : Type
  | addq (q : Quat) : QAOp
  | addw (q : Quat) (weight : ℝ) : QAOp

/-- Execute one insertion call on the state. -/
def QAOp.step (s : QAState) : QAOp → QAState
  | QAOp.addq q => add_quaternion s q
  | QAOp.addw q weight => add_quaternion_weighted s q weight

/-- Execute a sequence of insertion calls from a starting state. -/
def runOps (s : QAState) (ops : List QAOp) : QAState :=
  ops.foldl QAOp.step s

/-- Positive semidefiniteness of a 4×4 real matrix. -/
def IsPSD (M : Matrix (Fin 4) (Fin 4) ℝ) : Prop :=
  ∀ v : Fin 4 → ℝ, 0 ≤ v ⬝ᵥ M *ᵥ v

end

/-! ### Basic lemmas about the embedded operations -/

theorem outer_apply (u : Fin 4 → ℝ) (r c : Fin 4) : outer u r c = u r * u c := rfl

theorem matDivScalar_apply (M : Matrix (Fin 4) (Fin 4) ℝ) (d : ℝ) (r c : Fin 4) :
    matDivScalar M d r c = M r c / d := rfl

theorem outer_transpose (u : Fin 4 → ℝ) : (outer u).transpose = outer u := by
  ext r c
  simp [outer, vecMulVec_apply, mul_comm]

theorem matDivScalar_transpose (M : Matrix (Fin 4) (Fin 4) ℝ) (d : ℝ) :
    (matDivScalar M d).transpose = matDivScalar M.transpose d := by
  ext r c
  rfl

theorem coords_zero (q : Quat) : coords q 0 = q.i := rfl

theorem coords_one (q : Quat) : coords q 1 = q.j := rfl

theorem coords_two (q : Quat) : coords q 2 = q.k := rfl

theorem coords_three (q : Quat) : coords q 3 = q.w := rfl

theorem coords_dotProduct_self (q : Quat) : coords q ⬝ᵥ coords q = normSq q := by
  simp only [dotProduct, Fin.sum_univ_four, coords_zero, coords_one, coords_two,
    coords_three, normSq]
  ring

/-- A quaternion of unit squared norm is fixed by `from_quaternion`. -/
theorem from_quaternion_of_normSq_one (p : Quat) (h : normSq p = 1) :
    from_quaternion p = p := by
  cases p with
  | mk w i j k =>
      simp [from_quaternion, qnorm, h, Real.sqrt_one, qdivScalar]

theorem qnorm_of_normSq_one (p : Quat) (h : normSq p = 1) : qnorm p = 1 := by
  simp [qnorm, h, Real.sqrt_one]

/-- Orthonormality of eigenvector columns, entrywise form. -/
theorem spec_col_dot {N : Matrix (Fin 4) (Fin 4) ℝ} {d : SymEigen}
    (h : SymEigSpec N d) (i j : Fin 4) :
    colv d.eigenvectors i ⬝ᵥ colv d.eigenvectors j = if i = j then 1 else 0 := by
  have he := congrArg (fun M => M i j) h.2
  simpa [Matrix.mul_apply, Matrix.transpose_apply, dotProduct, colv,
    Matrix.one_apply] using he

/-- A rank-one outer-product matrix acts on a vector by projection. -/
theorem vecMulVec_mulVec_eq (u x : Fin 4 → ℝ) :
    vecMulVec u u *ᵥ x = (u ⬝ᵥ x) • u := by
  funext r
  show ∑ c, (u r * u c) * x c = (∑ c, u c * x c) * u r
  rw [Finset.sum_mul]
  exact Finset.sum_congr rfl fun c _ => by ring

theorem le_imaxStep_left (v : Fin 4 → ℝ) (best i : Fin 4) :
    v best ≤ v (imaxStep v best i) := by
  unfold imaxStep
  split_ifs with h
  · exact le_of_lt h
  · exact le_refl _

theorem le_imaxStep_right (v : Fin 4 → ℝ) (best i : Fin 4) :
    v i ≤ v (imaxStep v best i) := by
  unfold imaxStep
  split_ifs with h
  · exact le_refl _
  · exact le_of_not_lt h

/-- The entry `imax4` selects is a maximum of the vector. -/
theorem imax4_isMax (v : Fin 4 → ℝ) (j : Fin 4) : v j ≤ v (imax4 v) := by
  have l1 : v 0 ≤ v (imaxStep v 0 1) := le_imaxStep_left v 0 1
  have r1 : v 1 ≤ v (imaxStep v 0 1) := le_imaxStep_right v 0 1
  have l2 : v (imaxStep v 0 1) ≤ v (imaxStep v (imaxStep v 0 1) 2) :=
    le_imaxStep_left v (imaxStep v 0 1) 2
  have r2 : v 2 ≤ v (imaxStep v (imaxStep v 0 1) 2) :=
    le_imaxStep_right v (imaxStep v 0 1) 2
  have l3 : v (imaxStep v (imaxStep v 0 1) 2) ≤ v (imax4 v) :=
    le_imaxStep_left v (imaxStep v (imaxStep v 0 1) 2) 3
  have r3 : v 3 ≤ v (imax4 v) :=
    le_imaxStep_right v (imaxStep v (imaxStep v 0 1) 2) 3
  fin_cases j
  · exact le_trans l1 (le_trans l2 l3)
  · exact le_trans r1 (le_trans l2 l3)
  · exact le_trans r2 l3
  · exact r3

/-- With a strict unique maximum, `imax4` returns its index. -/
theorem imax4_eq_of_unique_max (v : Fin 4 → ℝ) (j₀ : Fin 4)
    (h : ∀ j, j ≠ j₀ → v j < v j₀) : imax4 v = j₀ := by
  by_contra hne
  have h1 := imax4_isMax v j₀
  have h2 := h (imax4 v) hne
  linarith

/-- Closed form of a batch of unit-weight insertions. -/
theorem insertAll_closed (s : QAState) (l : List Quat) :
    insertAll s l = ⟨s.matrix + (l.map fun q => outer (coords q)).sum,
      s.weight_sum + l.length⟩ := by
  induction l generalizing s with
  | nil =>
      cases s with
      | mk m w => simp [insertAll]
  | cons q t ih =>
      have hstep : insertAll s (q :: t) = insertAll (add_quaternion s q) t := rfl
      rw [hstep, ih]
      simp only [add_quaternion, List.map_cons, List.sum_cons, List.length_cons]
      congr 1
      · rw [add_assoc]
      · push_cast
        ring

/-! ### Claim theorems -/

/-- C4: `add_quaternion` adds the 4×4 outer product of the quaternion's
coefficient vector to the matrix and increments the weight sum by
exactly 1; the new state is fully determined this way (no error path
exists: the function is total). -/
theorem add_quaternion_effect (s : QAState) (q : Quat) (h : normSq q = 1) :
    (∀ r c, (add_quaternion s q).matrix r c = s.matrix r c + coords q r * coords q c) ∧
    (add_quaternion s q).weight_sum = s.weight_sum + 1 := by
  refine ⟨fun r c => ?_, rfl⟩
  simp [add_quaternion, outer, vecMulVec_apply, Matrix.add_apply]

/-- Witness for C4 at the unit quaternion `(w,i,j,k) = (1,0,0,0)` and
the fresh state. -/
theorem add_quaternion_effect_witness :
    normSq ⟨1, 0, 0, 0⟩ = 1 ∧
    ((∀ r c, (add_quaternion new ⟨1, 0, 0, 0⟩).matrix r c
        = new.matrix r c + coords ⟨1, 0, 0, 0⟩ r * coords ⟨1, 0, 0, 0⟩ c) ∧
      (add_quaternion new ⟨1, 0, 0, 0⟩).weight_sum = new.weight_sum + 1) :=
  ⟨by norm_num [normSq], add_quaternion_effect new ⟨1, 0, 0, 0⟩ (by norm_num [normSq])⟩

/-- C2: `add_quaternion_weighted` adds the outer product with every
entry divided by the weight (not multiplied) to the matrix, and adds
the weight itself, unscaled, to the weight sum; the new state is fully
determined this way. -/
theorem add_quaternion_weighted_effect (s : QAState) (q : Quat) (w : ℝ) (h : normSq q = 1) :
    (∀ r c, (add_quaternion_weighted s q w).matrix r c
        = s.matrix r c + (coords q r * coords q c) / w) ∧
    (add_quaternion_weighted s q w).weight_sum = s.weight_sum + w := by
  refine ⟨fun r c => ?_, rfl⟩
  simp [add_quaternion_weighted, matDivScalar, outer, vecMulVec_apply, Matrix.add_apply]

/-- Witness for C2 at the unit quaternion `(1,0,0,0)`, weight `2`, and
the fresh state. -/
theorem add_quaternion_weighted_effect_witness :
    normSq ⟨1, 0, 0, 0⟩ = 1 ∧
    ((∀ r c, (add_quaternion_weighted new ⟨1, 0, 0, 0⟩ 2).matrix r c
        = new.matrix r c + (coords ⟨1, 0, 0, 0⟩ r * coords ⟨1, 0, 0, 0⟩ c) / 2) ∧
      (add_quaternion_weighted new ⟨1, 0, 0, 0⟩ 2).weight_sum = new.weight_sum + 2) :=
  ⟨by norm_num [normSq],
    add_quaternion_weighted_effect new ⟨1, 0, 0, 0⟩ 2 (by norm_num [normSq])⟩

/-- C3: inserting a unit quaternion with weight 1 through
`add_quaternion_weighted` produces exactly the state `add_quaternion`
produces: dividing the outer product by 1 changes nothing, and both add
1 to the weight sum. -/
theorem add_quaternion_weighted_one (s : QAState) (q : Quat) (h : normSq q = 1) :
    add_quaternion_weighted s q 1 = add_quaternion s q := by
  have hm : matDivScalar (outer (coords q)) 1 = outer (coords q) := by
    ext r c
    simp [matDivScalar]
  simp [add_quaternion_weighted, add_quaternion, hm]

/-- Witness for C3 at the unit quaternion `(1,0,0,0)` and the fresh
state. -/
theorem add_quaternion_weighted_one_witness :
    normSq ⟨1, 0, 0, 0⟩ = 1 ∧
    add_quaternion_weighted new ⟨1, 0, 0, 0⟩ 1 = add_quaternion new ⟨1, 0, 0, 0⟩ :=
  ⟨by norm_num [normSq], add_quaternion_weighted_one new ⟨1, 0, 0, 0⟩ (by norm_num [normSq])⟩

/-- C5: `calc_average` takes the state by immutable borrow: a call
returns the state unchanged, and a second consecutive call (on the
state returned by the first) yields the same quaternion. -/
theorem calc_average_no_mutation (eig : Matrix (Fin 4) (Fin 4) ℝ → SymEigen) (s : QAState) :
    (calc_average_call eig s).2 = s ∧
    (calc_average_call eig ((calc_average_call eig s).2)).1 = (calc_average_call eig s).1 :=
  ⟨rfl, rfl⟩

/-- Symmetry of the accumulated matrix is preserved by each insertion. -/
theorem step_preserves_symm (s : QAState) (op : QAOp)
    (h : s.matrix.transpose = s.matrix) :
    ((QAOp.step s op).matrix).transpose = (QAOp.step s op).matrix := by
  cases op with
  | addq q =>
      simp [QAOp.step, add_quaternion, transpose_add, h, outer_transpose]
  | addw q w =>
      simp [QAOp.step, add_quaternion_weighted, transpose_add, h,
        matDivScalar_transpose, outer_transpose]

/-- C9: the matrix is symmetric initially and stays symmetric after any
sequence of `add_quaternion` / `add_quaternion_weighted` calls with any
arguments. -/
theorem matrix_symm_invariant (ops : List QAOp) :
    ((runOps new ops).matrix).transpose = (runOps new ops).matrix := by
  suffices h : ∀ s : QAState, s.matrix.transpose = s.matrix →
      ((runOps s ops).matrix).transpose = (runOps s ops).matrix by
    exact h new (by simp [new])
  induction ops with
  | nil => intro s hs; exact hs
  | cons op rest ih =>
      intro s hs
      exact ih (QAOp.step s op) (step_preserves_symm s op hs)

/-- C6: inserting a permutation of a sequence of unit quaternions via
`add_quaternion` into a fresh averager yields the same `calc_average`
result as the original sequence (the accumulated states coincide). -/
theorem calc_average_perm_invariant (l₁ l₂ : List Quat)
    (eig : Matrix (Fin 4) (Fin 4) ℝ → SymEigen)
    (hunit : ∀ q ∈ l₁, normSq q = 1) (hp : l₁.Perm l₂) :
    calc_average eig (insertAll new l₁) = calc_average eig (insertAll new l₂) := by
  have hstate : insertAll new l₁ = insertAll new l₂ := by
    rw [insertAll_closed, insertAll_closed]
    have hsum : (l₁.map fun q => outer (coords q)).sum
        = (l₂.map fun q => outer (coords q)).sum :=
      (hp.map fun q => outer (coords q)).sum_eq
    rw [hsum, hp.length_eq]
  rw [hstate]

/-- Witness for C6: the two-element sequences `[(1,0,0,0), (0,1,0,0)]`
and `[(0,1,0,0), (1,0,0,0)]`. -/
theorem calc_average_perm_invariant_witness :
    (∀ q ∈ [(⟨1, 0, 0, 0⟩ : Quat), ⟨0, 1, 0, 0⟩], normSq q = 1) ∧
    calc_average (fun _ => ⟨![0, 0, 0, 0], 1⟩)
        (insertAll new [(⟨1, 0, 0, 0⟩ : Quat), ⟨0, 1, 0, 0⟩])
      = calc_average (fun _ => ⟨![0, 0, 0, 0], 1⟩)
        (insertAll new [(⟨0, 1, 0, 0⟩ : Quat), ⟨1, 0, 0, 0⟩]) := by
  have hunit : ∀ q ∈ [(⟨1, 0, 0, 0⟩ : Quat), ⟨0, 1, 0, 0⟩], normSq q = 1 := by
    intro q hq
    simp only [List.mem_cons, List.not_mem_nil, or_false] at hq
    rcases hq with h | h <;> (subst h; norm_num [normSq])
  exact ⟨hunit, calc_average_perm_invariant _ _ _ hunit (List.Perm.swap _ _ _)⟩

/-- C1: on any state with positive weight sum, with the eigensolver
meeting its contract on `matrix / weight_sum`, `calc_average` returns a
quaternion of Euclidean norm 1 (the selected eigenvector column is
unit-length and renormalization keeps it so). -/
theorem calc_average_unit_norm (s : QAState)
    (eig : Matrix (Fin 4) (Fin 4) ℝ → SymEigen) (hw : 0 < s.weight_sum)
    (hspec : SymEigSpec (avgMatrix s) (eig (avgMatrix s))) :
    qnorm (calc_average eig s) = 1 := by
  have hdot := spec_col_dot hspec (imax4 (eig (avgMatrix s)).eigenvalues)
    (imax4 (eig (avgMatrix s)).eigenvalues)
  rw [if_pos rfl] at hdot
  have hns : normSq ⟨colv (eig (avgMatrix s)).eigenvectors (imax4 (eig (avgMatrix s)).eigenvalues) 3,
      colv (eig (avgMatrix s)).eigenvectors (imax4 (eig (avgMatrix s)).eigenvalues) 0,
      colv (eig (avgMatrix s)).eigenvectors (imax4 (eig (avgMatrix s)).eigenvalues) 1,
      colv (eig (avgMatrix s)).eigenvectors (imax4 (eig (avgMatrix s)).eigenvalues) 2⟩ = 1 := by
    rw [← hdot]
    simp only [normSq, dotProduct, Fin.sum_univ_four]
    ring
  show qnorm (from_quaternion _) = 1
  rw [from_quaternion_of_normSq_one _ hns]
  exact qnorm_of_normSq_one _ hns

/-- After one unit-weight insertion into a fresh averager, the matrix
handed to the eigensolver is exactly the outer product of the inserted
coefficient vector. -/
theorem avgMatrix_single (q : Quat) :
    avgMatrix (add_quaternion new q) = vecMulVec (coords q) (coords q) := by
  ext r c
  simp [avgMatrix, matDivScalar, add_quaternion, new, outer, Matrix.add_apply]

/-- For a rank-one projector `u uᵀ` with `‖u‖ = 1`, any decomposition
meeting the eigensolver contract has a unique maximal eigenvalue 1, and
the column `imax` selects is `±u`. -/
theorem rank_one_top_eigencolumn (u : Fin 4 → ℝ) (d : SymEigen) (hu : u ⬝ᵥ u = 1)
    (hspec : SymEigSpec (vecMulVec u u) d) :
    ∃ e : ℝ, (e = 1 ∨ e = -1) ∧
      colv d.eigenvectors (imax4 d.eigenvalues) = e • u := by
  obtain ⟨heig, horth⟩ := hspec
  set P := d.eigenvectors with hP
  set lam := d.eigenvalues with hlamdef
  set c : Fin 4 → ℝ := fun j => u ⬝ᵥ colv P j with hc
  have h1 : ∀ j, c j • u = lam j • colv P j := by
    intro j
    rw [← vecMulVec_mulVec_eq]
    exact heig j
  have hdot : ∀ i j, colv P i ⬝ᵥ colv P j = if i = j then 1 else 0 :=
    fun i j => spec_col_dot ⟨heig, horth⟩ i j
  have hlam_eq : ∀ j, lam j = c j * c j := by
    intro j
    have h2 := congrArg (fun x => x ⬝ᵥ colv P j) (h1 j)
    simp only [smul_dotProduct, smul_eq_mul] at h2
    rw [hdot j j, if_pos rfl, mul_one] at h2
    rw [← h2]
  have hpair : ∀ i j, i ≠ j → c i * c j = 0 := by
    intro i j hij
    have h2 := congrArg (fun x => x ⬝ᵥ colv P j) (h1 i)
    simp only [smul_dotProduct, smul_eq_mul] at h2
    rw [hdot i j, if_neg hij, mul_zero] at h2
    exact h2
  have hPPt : P * P.transpose = 1 := Matrix.mul_eq_one_comm.mp horth
  have hcv : c = vecMul u P := by
    funext j
    rfl
  have hsum : ∑ j, c j * c j = 1 := by
    calc ∑ j, c j * c j = c ⬝ᵥ c := rfl
      _ = vecMul u P ⬝ᵥ vecMul u P := by rw [hcv]
      _ = u ⬝ᵥ P *ᵥ vecMul u P := (Matrix.dotProduct_mulVec u P (vecMul u P)).symm
      _ = u ⬝ᵥ P *ᵥ (P.transpose *ᵥ u) := by rw [Matrix.mulVec_transpose]
      _ = u ⬝ᵥ (P * P.transpose) *ᵥ u := by rw [Matrix.mulVec_mulVec]
      _ = u ⬝ᵥ (1 : Matrix (Fin 4) (Fin 4) ℝ) *ᵥ u := by rw [hPPt]
      _ = u ⬝ᵥ u := by rw [Matrix.one_mulVec]
      _ = 1 := hu
  have hex : ∃ j, c j ≠ 0 := by
    by_contra hall
    push_neg at hall
    have h0 : ∑ j, c j * c j = 0 :=
      Finset.sum_eq_zero fun j _ => by rw [hall j, zero_mul]
    rw [h0] at hsum
    exact zero_ne_one hsum
  obtain ⟨j₀, hj₀⟩ := hex
  have hzero : ∀ j, j ≠ j₀ → c j = 0 := by
    intro j hj
    rcases mul_eq_zero.mp (hpair j j₀ hj) with h | h
    · exact h
    · exact absurd h hj₀
  have hsum' : ∑ j, c j * c j = c j₀ * c j₀ :=
    Finset.sum_eq_single j₀ (fun j _ hj => by rw [hzero j hj, zero_mul])
      fun h => absurd (Finset.mem_univ j₀) h
  have hcj₀ : c j₀ * c j₀ = 1 := by rw [← hsum', hsum]
  have hlam₀ : lam j₀ = 1 := by rw [hlam_eq j₀, hcj₀]
  have hlamz : ∀ j, j ≠ j₀ → lam j = 0 := fun j hj => by
    rw [hlam_eq j, hzero j hj, zero_mul]
  have himax : imax4 lam = j₀ :=
    imax4_eq_of_unique_max lam j₀ fun j hj => by
      rw [hlamz j hj, hlam₀]
      norm_num
  have hv : colv P j₀ = c j₀ • u := by
    have h3 := h1 j₀
    rw [hlam₀, one_smul] at h3
    exact h3.symm
  exact ⟨c j₀, mul_self_eq_one_iff.mp hcj₀, by rw [himax, hv]⟩

/-- C7: inserting one unit quaternion into a fresh averager and
extracting returns that quaternion or its negation, whenever the
eigensolver meets its contract on the accumulated matrix. -/
theorem calc_average_single_sample (q : Quat)
    (eig : Matrix (Fin 4) (Fin 4) ℝ → SymEigen) (hq : normSq q = 1)
    (hspec : SymEigSpec (avgMatrix (add_quaternion new q))
      (eig (avgMatrix (add_quaternion new q)))) :
    calc_average eig (add_quaternion new q) = q ∨
    calc_average eig (add_quaternion new q) = Quat.neg q := by
  have hN := avgMatrix_single q
  have hu : coords q ⬝ᵥ coords q = 1 := by rw [coords_dotProduct_self, hq]
  rw [hN] at hspec
  obtain ⟨e, he, hcol⟩ := rank_one_top_eigencolumn (coords q) _ hu hspec
  have hca : calc_average eig (add_quaternion new q)
      = from_quaternion ⟨e * q.w, e * q.i, e * q.j, e * q.k⟩ := by
    simp only [calc_average]
    rw [hN, hcol]
    simp only [Pi.smul_apply, smul_eq_mul, coords_zero, coords_one, coords_two,
      coords_three]
  rcases he with he | he
  · left
    rw [hca, he]
    simp only [one_mul]
    have hq' : normSq ⟨q.w, q.i, q.j, q.k⟩ = 1 := hq
    rw [from_quaternion_of_normSq_one _ hq']
  · right
    rw [hca, he]
    have hneg : (⟨-1 * q.w, -1 * q.i, -1 * q.j, -1 * q.k⟩ : Quat) = Quat.neg q := by
      simp [Quat.neg]
    rw [hneg, from_quaternion_of_normSq_one]
    rw [← hq]
    simp only [Quat.neg, normSq]
    ring

/-- Quadratic form of an outer-product matrix: a perfect square. -/
theorem outer_quadform (u v : Fin 4 → ℝ) :
    v ⬝ᵥ outer u *ᵥ v = (u ⬝ᵥ v) * (u ⬝ᵥ v) := by
  rw [show outer u = vecMulVec u u from rfl, vecMulVec_mulVec_eq,
    dotProduct_smul, smul_eq_mul, dotProduct_comm]

/-- Quadratic form of an entrywise-divided matrix. -/
theorem matDivScalar_quadform (M : Matrix (Fin 4) (Fin 4) ℝ) (c : ℝ) (v : Fin 4 → ℝ) :
    v ⬝ᵥ matDivScalar M c *ᵥ v = (v ⬝ᵥ M *ᵥ v) / c := by
  have hin : ∀ r, ∑ j, M r j / c * v j = (∑ j, M r j * v j) / c := by
    intro r
    rw [Finset.sum_div]
    exact Finset.sum_congr rfl fun j _ => div_mul_eq_mul_div _ _ _
  show ∑ r, v r * ∑ j, M r j / c * v j = (∑ r, v r * ∑ j, M r j * v j) / c
  rw [Finset.sum_div]
  refine Finset.sum_congr rfl fun r _ => ?_
  rw [hin r, mul_div_assoc]

/-- Positive semidefiniteness of the accumulated matrix and
nonnegativity of the weight sum are preserved along any run whose
explicit weights are all positive. -/
theorem runOps_psd (ops : List QAOp) (s : QAState)
    (hs : IsPSD s.matrix) (hw0 : 0 ≤ s.weight_sum)
    (hw : ∀ q w, QAOp.addw q w ∈ ops → 0 < w) :
    IsPSD (runOps s ops).matrix ∧ 0 ≤ (runOps s ops).weight_sum := by
  induction ops generalizing s with
  | nil => exact ⟨hs, hw0⟩
  | cons op rest ih =>
      have hstep : runOps s (op :: rest) = runOps (QAOp.step s op) rest := rfl
      rw [hstep]
      have hrest : ∀ q w, QAOp.addw q w ∈ rest → 0 < w :=
        fun q w h => hw q w (List.mem_cons_of_mem _ h)
      cases op with
      | addq q =>
          refine ih (add_quaternion s q) ?_ ?_ hrest
          · intro v
            show 0 ≤ v ⬝ᵥ (s.matrix + outer (coords q)) *ᵥ v
            rw [Matrix.add_mulVec, dotProduct_add]
            have h2 := outer_quadform (coords q) v
            have h3 : 0 ≤ coords q ⬝ᵥ v * (coords q ⬝ᵥ v) := mul_self_nonneg _
            have h4 := hs v
            rw [h2]
            linarith
          · show 0 ≤ s.weight_sum + 1
            linarith
      | addw q w =>
          have hwpos : 0 < w := hw q w (List.mem_cons_self _ _)
          refine ih (add_quaternion_weighted s q w) ?_ ?_ hrest
          · intro v
            show 0 ≤ v ⬝ᵥ (s.matrix + matDivScalar (outer (coords q)) w) *ᵥ v
            rw [Matrix.add_mulVec, dotProduct_add, matDivScalar_quadform,
              outer_quadform]
            have h3 : 0 ≤ coords q ⬝ᵥ v * (coords q ⬝ᵥ v) / w :=
              div_nonneg (mul_self_nonneg _) (le_of_lt hwpos)
            have h4 := hs v
            linarith
          · show 0 ≤ s.weight_sum + w
            linarith

/-- Any eigenvalue delivered by a contract-conforming decomposition of
a positive-semidefinite matrix is nonnegative. -/
theorem eigenvalues_nonneg_of_psd (N : Matrix (Fin 4) (Fin 4) ℝ) (d : SymEigen)
    (hspec : SymEigSpec N d) (hN : IsPSD N) (i : Fin 4) :
    0 ≤ d.eigenvalues i := by
  have h2 : colv d.eigenvectors i ⬝ᵥ N *ᵥ colv d.eigenvectors i = d.eigenvalues i := by
    rw [hspec.1 i, dotProduct_smul, smul_eq_mul]
    have hd := spec_col_dot hspec i i
    rw [if_pos rfl] at hd
    rw [hd, mul_one]
  rw [← h2]
  exact hN _

/-- C10: after any run in which every explicit weight is positive, the
accumulated matrix is positive semidefinite, and every eigenvalue a
contract-conforming decomposition of `matrix / weight_sum` (the matrix
`calc_average` examines) can deliver is nonnegative. -/
theorem psd_invariant (ops : List QAOp)
    (hw : ∀ q w, QAOp.addw q w ∈ ops → 0 < w) :
    IsPSD (runOps new ops).matrix ∧
    ∀ d : SymEigen, SymEigSpec (avgMatrix (runOps new ops)) d →
      ∀ i, 0 ≤ d.eigenvalues i := by
  have hbase : IsPSD (new : QAState).matrix := by
    intro v
    show 0 ≤ v ⬝ᵥ (0 : Matrix (Fin 4) (Fin 4) ℝ) *ᵥ v
    simp [Matrix.zero_mulVec]
  obtain ⟨hpsd, hwsum⟩ := runOps_psd ops new hbase (le_refl 0) hw
  refine ⟨hpsd, fun d hspec i => ?_⟩
  refine eigenvalues_nonneg_of_psd _ d hspec ?_ i
  intro v
  show 0 ≤ v ⬝ᵥ matDivScalar (runOps new ops).matrix (runOps new ops).weight_sum *ᵥ v
  rw [matDivScalar_quadform]
  exact div_nonneg (hpsd v) hwsum

/-- The identity eigenvector matrix with eigenvalues `(0,0,0,1)` is a
valid decomposition of the matrix accumulated from the single unit
quaternion `(1,0,0,0)`. -/
theorem spec_witness_single :
    SymEigSpec (avgMatrix (add_quaternion new ⟨1, 0, 0, 0⟩))
      (⟨![0, 0, 0, 1], 1⟩ : SymEigen) := by
  constructor
  · intro j
    funext r
    fin_cases j <;> fin_cases r <;>
      (simp [avgMatrix, matDivScalar, add_quaternion, new, outer, coords,
        Matrix.mulVec, dotProduct, colv, Fin.sum_univ_four, Matrix.one_apply,
        vecMulVec_apply] <;> norm_num)
  · simp

/-- Witness for C1: one insertion of `(1,0,0,0)`, extraction with the
decomposition above, output of norm 1. -/
theorem calc_average_unit_norm_witness :
    0 < (add_quaternion new ⟨1, 0, 0, 0⟩).weight_sum ∧
    qnorm (calc_average (fun _ => ⟨![0, 0, 0, 1], 1⟩)
      (add_quaternion new ⟨1, 0, 0, 0⟩)) = 1 := by
  have hw : 0 < (add_quaternion new ⟨1, 0, 0, 0⟩).weight_sum := by
    show (0 : ℝ) < 0 + 1
    norm_num
  exact ⟨hw, calc_average_unit_norm _ _ hw spec_witness_single⟩

/-- Witness for C7: inserting `(1,0,0,0)` and extracting returns the
quaternion itself or its negation. -/
theorem calc_average_single_sample_witness :
    normSq ⟨1, 0, 0, 0⟩ = 1 ∧
    (calc_average (fun _ => ⟨![0, 0, 0, 1], 1⟩)
        (add_quaternion new ⟨1, 0, 0, 0⟩) = ⟨1, 0, 0, 0⟩ ∨
      calc_average (fun _ => ⟨![0, 0, 0, 1], 1⟩)
        (add_quaternion new ⟨1, 0, 0, 0⟩) = Quat.neg ⟨1, 0, 0, 0⟩) :=
  ⟨by norm_num [normSq],
    calc_average_single_sample _ _ (by norm_num [normSq]) spec_witness_single⟩

/-- The identity eigenvector matrix with eigenvalues `(0,0,0,1/4)` is a
valid decomposition of the normalized matrix after inserting
`(1,0,0,0)` with weight 2. -/
theorem spec_witness_weighted :
    SymEigSpec (avgMatrix (runOps new [QAOp.addw ⟨1, 0, 0, 0⟩ 2]))
      (⟨![0, 0, 0, 1 / 4], 1⟩ : SymEigen) := by
  constructor
  · intro j
    funext r
    fin_cases j <;> fin_cases r <;>
      (simp [avgMatrix, matDivScalar, runOps, QAOp.step, add_quaternion_weighted,
        new, outer, coords, Matrix.mulVec, dotProduct, colv, Fin.sum_univ_four,
        Matrix.one_apply, vecMulVec_apply] <;> norm_num)
  · simp

/-- Witness for C10: one weighted insertion with weight 2; the matrix
is positive semidefinite and the concrete decomposition's eigenvalues
are nonnegative. -/
theorem psd_invariant_witness :
    (∀ q w, QAOp.addw q w ∈ [QAOp.addw ⟨1, 0, 0, 0⟩ 2] → 0 < w) ∧
    IsPSD (runOps new [QAOp.addw ⟨1, 0, 0, 0⟩ 2]).matrix ∧
    ∀ i, 0 ≤ (⟨![0, 0, 0, 1 / 4], 1⟩ : SymEigen).eigenvalues i := by
  have hw : ∀ q w, QAOp.addw q w ∈ [QAOp.addw ⟨1, 0, 0, 0⟩ 2] → 0 < w := by
    intro q w h
    simp only [List.mem_cons, List.not_mem_nil, or_false] at h
    injection h with h1 h2
    rw [h2]
    norm_num
  obtain ⟨hpsd, heigs⟩ := psd_invariant _ hw
  exact ⟨hw, hpsd, heigs _ spec_witness_weighted⟩

end QAvg
